import Mathlib

/-!
Verification development for the Local-STMPO-AE render orchestrator.

The Python sources are shallowly embedded here:
  * `src/stmpo/orchestrator.py` : frame-range splitting, concurrency planning,
    segmentation decision, affinity planning, offload loop, output matchers,
    exit-code policy, and the segmented stitch/finalize step;
  * `src/stmpo_stop.py` : the external kill tool (pid gathering and kill order).

Python machine integers are modelled as `Int` (Python ints are unbounded, so no
wrap-around is needed).  Python floats that feed the concurrency heuristic are
modelled as exact rationals `ℚ`; the claims proved about them depend only on the
comparisons and the floor, never on IEEE rounding.  Fallible paths are modelled
with `Except`.
-/

/-! ## Range splitter (`split_ranges`, orchestrator.py lines 375-393) -/

/-- Loop body of `split_ranges`: `for i in range(parts): span = base + (1 if i < rem
else 0); s, e = cur, cur + span - 1; append (s, e); cur = e + 1`.  The first
argument counts the remaining iterations, `i` is the Python loop index, `cur`
the running start frame. -/
def split_ranges_loop (base : Int) (rem : Nat) : Nat → Nat → Int → List (Int × Int)
  | 0, _, _ => []
  | n + 1, i, cur =>
    (cur, cur + (base + if i < rem then 1 else 0) - 1) ::
      split_ranges_loop base rem n (i + 1) (cur + (base + if i < rem then 1 else 0))

/-- Clamping of `parts` in `split_ranges`: `if parts <= 0: parts = 1` then
`if parts > total: parts = total`. -/
def clamp_parts (total parts : Int) : Int :=
  let p1 := if parts ≤ 0 then 1 else parts
  if p1 > total then total else p1

/-- `split_ranges(start, end, parts)` from orchestrator.py.  `total = end-start+1`;
`base = total // parts`, `rem = total % parts` after clamping.  Python floor
division and modulus coincide with `Int` (Euclidean) `/` and `%` whenever the
divisor is positive, which holds for every input on which the Python code does
not raise `ZeroDivisionError` (that is, whenever the clamped `parts` is nonzero). -/
def split_ranges (start endf parts : Int) : List (Int × Int) :=
  let total := endf - start + 1
  let p := clamp_parts total parts
  split_ranges_loop (total / p) (total % p).toNat p.toNat 0 start

/-- Total number of frames covered by `n` consecutive spans of the loop starting
at loop index `i`: each span is `base` frames plus one extra frame for indices
below `rem`. -/
def span_total (base : Int) (rem : Nat) (i n : Nat) : Int :=
  (n : Int) * base + ((min (i + n) rem : Nat) : Int) - ((min i rem : Nat) : Int)

theorem span_total_zero (base : Int) (rem i : Nat) : span_total base rem i 0 = 0 := by
  simp [span_total]

theorem span_total_cons (base : Int) (rem i n : Nat) :
    span_total base rem i (n + 1) =
      (base + if i < rem then 1 else 0) + span_total base rem (i + 1) n := by
  unfold span_total
  have hd : ((n : Int) + 1) * base = (n : Int) * base + base := by ring
  split <;> push_cast <;> omega

theorem span_total_succ (base : Int) (rem i n : Nat) :
    span_total base rem i (n + 1) =
      span_total base rem i n + (base + if i + n < rem then 1 else 0) := by
  unfold span_total
  have hd : ((n : Int) + 1) * base = (n : Int) * base + base := by ring
  split <;> push_cast <;> omega

theorem span_total_mono (base : Int) (hb : 0 ≤ base) (rem i : Nat) {m n : Nat}
    (hmn : m ≤ n) : span_total base rem i m ≤ span_total base rem i n := by
  have h1 : (m : Int) * base ≤ (n : Int) * base :=
    mul_le_mul_of_nonneg_right (by exact_mod_cast hmn) hb
  unfold span_total
  have h2 : min (i + m) rem ≤ min (i + n) rem := by omega
  omega

theorem span_total_pos (base : Int) (hb : 1 ≤ base) (rem i : Nat) {n : Nat}
    (hn : 1 ≤ n) : 1 ≤ span_total base rem i n := by
  have h1 : (n : Int) * 1 ≤ (n : Int) * base :=
    mul_le_mul_of_nonneg_left hb (by positivity)
  unfold span_total
  have h2 : min i rem ≤ min (i + n) rem := by omega
  omega

theorem split_ranges_loop_length (base : Int) (rem : Nat) :
    ∀ (n i : Nat) (cur : Int), (split_ranges_loop base rem n i cur).length = n := by
  intro n
  induction n with
  | zero => intro i cur; rfl
  | succ m ih => intro i cur; simp [split_ranges_loop, ih]

theorem split_ranges_loop_getD (base : Int) (rem : Nat) :
    ∀ (n i : Nat) (cur : Int) (k : Nat), k < n →
      (split_ranges_loop base rem n i cur).getD k (0, 0) =
        (cur + span_total base rem i k, cur + span_total base rem i (k + 1) - 1) := by
  intro n
  induction n with
  | zero => intro i cur k hk; omega
  | succ m ih =>
    intro i cur k hk
    cases k with
    | zero =>
      simp only [split_ranges_loop, List.getD_cons_zero]
      rw [span_total_zero, span_total_cons, span_total_zero]
      simp only [Prod.mk.injEq]
      constructor <;> ring
    | succ j =>
      simp only [split_ranges_loop, List.getD_cons_succ]
      rw [ih (i + 1) (cur + (base + if i < rem then 1 else 0)) j (by omega)]
      rw [span_total_cons base rem i (j + 1), span_total_cons base rem i j]
      simp only [Prod.mk.injEq]
      constructor <;> ring

theorem split_ranges_loop_cover (base : Int) (hb : 1 ≤ base) (rem : Nat) :
    ∀ (n i : Nat) (cur f : Int), 0 < n →
      ((∃ r ∈ split_ranges_loop base rem n i cur, r.1 ≤ f ∧ f ≤ r.2) ↔
        (cur ≤ f ∧ f ≤ cur + span_total base rem i n - 1)) := by
  intro n
  induction n with
  | zero => intro i cur f h; omega
  | succ m ih =>
    intro i cur f _
    cases Nat.eq_zero_or_pos m with
    | inl hm =>
      subst hm
      simp only [split_ranges_loop, List.mem_singleton]
      rw [span_total_cons, span_total_zero]
      constructor
      · rintro ⟨r, hr, h1, h2⟩
        subst hr
        dsimp only at h1 h2
        omega
      · intro hf
        refine ⟨_, rfl, ?_, ?_⟩ <;> dsimp only <;> omega
    | inr hm =>
      have hspan1 : (1 : Int) ≤ base + if i < rem then 1 else 0 := by split <;> omega
      have hspan2 : (1 : Int) ≤ span_total base rem (i + 1) m :=
        span_total_pos base hb rem (i + 1) hm
      simp only [split_ranges_loop, List.mem_cons]
      rw [span_total_cons]
      constructor
      · rintro ⟨r, hr | hr, h1, h2⟩
        · subst hr
          dsimp only at h1 h2
          refine ⟨h1, ?_⟩
          omega
        · have := (ih (i + 1) (cur + (base + if i < rem then 1 else 0)) f hm).mp
            ⟨r, hr, h1, h2⟩
          constructor <;> omega
      · intro hf
        by_cases hcase : f ≤ cur + (base + if i < rem then 1 else 0) - 1
        · exact ⟨_, Or.inl rfl, hf.1, hcase⟩
        · obtain ⟨r, hr, h1, h2⟩ :=
            (ih (i + 1) (cur + (base + if i < rem then 1 else 0)) f hm).mpr (by omega)
          exact ⟨r, Or.inr hr, h1, h2⟩

/-- The partition property claimed for `split_ranges`: the produced ranges are
sorted and pairwise disjoint (`(i)`), contiguous (`(ii)`), their union is
exactly the inclusive interval `[start, endf]` (`(iii)`), the first `rem` of
them have `base + 1` frames and the rest `base` frames (`(iv)`), and any two
sizes differ by at most one frame (`(v)`). -/
def SplitRangesPartition (start endf parts : Int) : Prop :=
  let total := endf - start + 1
  let p := clamp_parts total parts
  let base := total / p
  let rem := total % p
  let L := split_ranges start endf parts
  L.length = p.toNat ∧
  (∀ j k : Nat, j < k → k < L.length → (L.getD j (0, 0)).2 < (L.getD k (0, 0)).1) ∧
  (∀ k : Nat, k + 1 < L.length → (L.getD (k + 1) (0, 0)).1 = (L.getD k (0, 0)).2 + 1) ∧
  (∀ f : Int, (∃ r ∈ L, r.1 ≤ f ∧ f ≤ r.2) ↔ (start ≤ f ∧ f ≤ endf)) ∧
  (∀ k : Nat, k < L.length →
    (L.getD k (0, 0)).2 - (L.getD k (0, 0)).1 + 1 = base + (if (k : Int) < rem then 1 else 0)) ∧
  (∀ j k : Nat, j < L.length → k < L.length →
    (L.getD j (0, 0)).2 - (L.getD j (0, 0)).1 ≤ (L.getD k (0, 0)).2 - (L.getD k (0, 0)).1 + 1)

/-- C2: for every `start ≤ endf` and every `parts`, `split_ranges` produces a
sorted, pairwise disjoint, contiguous partition of `[start, endf]` whose first
`rem` ranges have `base + 1` frames and whose remaining ranges have `base`
frames, sizes differing by at most one. -/
theorem split_ranges_partition (start endf parts : Int) (h : start ≤ endf) :
    SplitRangesPartition start endf parts := by
  simp only [SplitRangesPartition]
  have htotal : 1 ≤ endf - start + 1 := by omega
  have hp1 : 1 ≤ clamp_parts (endf - start + 1) parts := by
    simp only [clamp_parts]
    split_ifs <;> omega
  have hp2 : clamp_parts (endf - start + 1) parts ≤ endf - start + 1 := by
    simp only [clamp_parts]
    split_ifs <;> omega
  set total := endf - start + 1 with htot
  set p := clamp_parts total parts with hpdef
  set base := total / p with hbase
  set rem := total % p with hrem
  have hbase1 : 1 ≤ base := by
    rw [hbase]
    exact (Int.le_ediv_iff_mul_le (by omega)).mpr (by omega)
  have hrem0 : 0 ≤ rem := Int.emod_nonneg total (by omega)
  have hremp : rem < p := Int.emod_lt_of_pos total (by omega)
  have hdivmod : p * base + rem = total := Int.ediv_add_emod total p
  have hL : split_ranges start endf parts =
      split_ranges_loop base rem.toNat p.toNat 0 start := rfl
  have hlen : (split_ranges start endf parts).length = p.toNat := by
    rw [hL, split_ranges_loop_length]
  have hget : ∀ k : Nat, k < p.toNat →
      (split_ranges start endf parts).getD k (0, 0) =
        (start + span_total base rem.toNat 0 k,
         start + span_total base rem.toNat 0 (k + 1) - 1) := by
    intro k hk
    rw [hL]
    exact split_ranges_loop_getD base rem.toNat p.toNat 0 start k hk
  have hsize : ∀ k : Nat,
      span_total base rem.toNat 0 (k + 1) - span_total base rem.toNat 0 k =
        base + (if (k : Int) < rem then 1 else 0) := by
    intro k
    rw [span_total_succ]
    split <;> split <;> omega
  refine ⟨hlen, ?_, ?_, ?_, ?_, ?_⟩
  · -- sorted and pairwise disjoint
    intro j k hjk hk
    rw [hlen] at hk
    rw [hget j (by omega), hget k hk]
    have hmono : span_total base rem.toNat 0 (j + 1) ≤ span_total base rem.toNat 0 k :=
      span_total_mono base (by omega) rem.toNat 0 (by omega)
    dsimp only
    omega
  · -- contiguity
    intro k hk
    rw [hlen] at hk
    rw [hget (k + 1) (by omega), hget k (by omega)]
    dsimp only
    ring
  · -- union is exactly the input interval
    intro f
    have hcover := split_ranges_loop_cover base hbase1 rem.toNat p.toNat 0 start f
      (by omega)
    rw [hL]
    rw [hcover]
    have hfull : span_total base rem.toNat 0 p.toNat = total := by
      unfold span_total
      have hmin : min (0 + p.toNat) rem.toNat = rem.toNat := by omega
      rw [hmin]
      have hcast : ((p.toNat : Int)) = p := Int.toNat_of_nonneg (by omega)
      rw [hcast]
      omega
    rw [hfull]
    omega
  · -- sizes: first rem ranges have base + 1 frames, the rest base frames
    intro k hk
    rw [hlen] at hk
    rw [hget k hk]
    have := hsize k
    dsimp only
    omega
  · -- any two range sizes differ by at most one frame
    intro j k hj hk
    rw [hlen] at hj hk
    rw [hget j hj, hget k hk]
    have h1 := hsize j
    have h2 := hsize k
    dsimp only
    split at h1 <;> split at h2 <;> omega

/-- Witness for C2 at the end-to-end scenario `start = 1`, `endf = 100`,
`parts = 3` (ranges `[1,34], [35,67], [68,100]`). -/
theorem split_ranges_partition_witness :
    (1 : Int) ≤ 100 ∧ SplitRangesPartition 1 100 3 :=
  ⟨by decide, split_ranges_partition 1 100 3 (by decide)⟩

/-! ## Concurrency planner (`auto_concurrency`, orchestrator.py lines 516-560) -/

/-- `auto_concurrency(args, logger)` from orchestrator.py, with the system
telemetry (the logical CPU count from `_cpu_count()` and the detected total RAM
from `get_total_ram_native`) passed in as parameters.  Python floats are
modelled by exact rationals: the heuristic only compares them against `0` and
takes a single floor (`int(usable_ram_gb // ram_per_proc_gb)`), so IEEE
rounding cannot change any property proved about it here.  Python `x or d`
yields the default `d` exactly when `x == 0`. -/
def auto_concurrency (max_concurrency logical : Int)
    (total_ram_gb ram_per_process_gb : ℚ) (mfr_threads : Int) (disable_mfr : Bool) : Int :=
  let max_c := if max_concurrency = 0 then 24 else max_concurrency
  if logical ≤ 0 then max 1 (min 4 max_c)
  else
    let ram_per0 : ℚ := if ram_per_process_gb = 0 then 32 else ram_per_process_gb
    let ram_per : ℚ := if ram_per0 ≤ 0 then 32 else ram_per0
    let usable_ram : ℚ := if total_ram_gb > 0 then total_ram_gb * (4 / 5) else 0
    let max_by_ram := if usable_ram > 0 then (usable_ram / ram_per).floor else logical
    let target_threads :=
      if disable_mfr then max 8 (if mfr_threads = 0 then 8 else mfr_threads)
      else max 16 (if mfr_threads = 0 then 16 else mfr_threads)
    let base_by_threads := max 1 (logical / target_threads)
    max 1 (min (min (min max_c max_by_ram) base_by_threads) logical)

/-- Lines 791-799 of `run_orchestrator`: the worker count the orchestrator
actually uses.  `requested = int(args.concurrency or 0)` is clamped from below
at 0; a positive request is used directly, otherwise `auto_concurrency`
decides; finally a run with at most one frame is forced to a single worker. -/
def planned_concurrency (concurrency_arg total_frames auto : Int) : Int :=
  let requested := if concurrency_arg < 0 then 0 else concurrency_arg
  let c := if 1 ≤ requested then requested else auto
  if total_frames ≤ 1 then 1 else c

/-- C3 counterexample: on an 8-CPU machine with undetectable RAM and the
operator-supplied cap `--max_concurrency -5`, the planner returns `1`, which is
not bounded by `min(max_cap, logical_cpus) = -5`.  The claimed upper bound
therefore fails for some planner inputs. -/
theorem auto_concurrency_cap_counterexample :
    auto_concurrency (-5) 8 0 32 0 false = 1 ∧
      ¬ (auto_concurrency (-5) 8 0 32 0 false ≤ min (-5 : Int) 8) := by
  constructor <;> decide

/-- C3 amended: the planner result is at least `1` for every input; the upper
bound `plan ≤ min(max_cap, logical_cpus)` holds whenever the configured cap and
the detected logical CPU count are both at least `1` (the counterexample shows
it fails for a non-positive cap); and the orchestrator plans exactly one worker
whenever `total_frames ≤ 1`, including when the operator requested a positive
worker count. -/
theorem auto_concurrency_bounds :
    (∀ (mc logical : Int) (ram rp : ℚ) (mfr : Int) (d : Bool),
      1 ≤ auto_concurrency mc logical ram rp mfr d) ∧
    (∀ (mc logical : Int) (ram rp : ℚ) (mfr : Int) (d : Bool),
      1 ≤ mc → 1 ≤ logical →
        auto_concurrency mc logical ram rp mfr d ≤ min mc logical) ∧
    (∀ (concurrency_arg total_frames auto : Int), total_frames ≤ 1 →
      planned_concurrency concurrency_arg total_frames auto = 1) := by
  have helper : ∀ (a b m : Int), 1 ≤ a → 1 ≤ b → m ≤ a → m ≤ b → max 1 m ≤ min a b := by
    intro a b m h1 h2 hm1 hm2
    omega
  refine ⟨?_, ?_, ?_⟩
  · intro mc logical ram rp mfr d
    simp only [auto_concurrency]
    split_ifs <;> exact le_max_left 1 _
  · intro mc logical ram rp mfr d hcap hcpu
    simp only [auto_concurrency]
    rw [if_neg (by omega : ¬ logical ≤ 0), if_neg (by omega : ¬ mc = 0)]
    refine helper _ _ _ hcap hcpu ?_ (min_le_right _ _)
    exact le_trans (min_le_left _ _) (le_trans (min_le_left _ _) (min_le_left _ _))
  · intro carg total auto htotal
    simp only [planned_concurrency]
    rw [if_pos htotal]

/-- Witness for the amended C3 bound at the end-to-end scenario
(`max_cap = 4`, 8 CPUs, 32 GB RAM, 8 GB per worker) and for the single-frame
forcing with an explicit positive request. -/
theorem auto_concurrency_bounds_witness :
    (1 ≤ auto_concurrency 4 8 32 8 0 false) ∧
      (auto_concurrency 4 8 32 8 0 false ≤ min 4 8) ∧
      planned_concurrency 6 1 5 = 1 :=
  ⟨auto_concurrency_bounds.1 4 8 32 8 0 false,
   auto_concurrency_bounds.2.1 4 8 32 8 0 false (by decide) (by decide),
   auto_concurrency_bounds.2.2 6 1 5 (by decide)⟩

/-! ## Segmentation decision (`run_orchestrator`, orchestrator.py lines 801-874) -/

/-- Zero-padded rendering of the Python format `{idx:03d}` for the segment
index (always positive in the source, `enumerate(..., start=1)`). -/
def pad3 (n : Nat) : String :=
  if n < 10 then "00" ++ toString n
  else if n < 100 then "0" ++ toString n
  else toString n

/-- Segment file name `f"{base}__part_{idx:03d}_{s}-{e}{ext}"` from lines
862-866 of orchestrator.py. -/
def seg_name (base : String) (idx : Nat) (s e : Int) (ext : String) : String :=
  base ++ "__part_" ++ pad3 idx ++ "_" ++ toString s ++ "-" ++ toString e ++ ext

/-- Segment names for all ranges, `for idx, (s, e) in enumerate(ranges, start=1)`. -/
def seg_names (base ext : String) (ranges : List (Int × Int)) : List String :=
  ranges.enum.map (fun p => seg_name base (p.1 + 1) p.2.1 p.2.2 ext)

/-- Lines 808-827 of `run_orchestrator`: `single_file_concat_mode` is set iff
`total_frames > 1 and not output_is_seq and concurrency > 1`; if set but
`find_ffmpeg()` returns nothing, the mode is cleared and concurrency falls back
to 1.  Returns the final `(single_file_concat_mode, concurrency)` pair.  The
ffmpeg probe (environment variable plus PATH search) is system state and is
passed in as an `Option`. -/
def plan_segmentation (total_frames : Int) (output_is_seq : Bool) (concurrency : Int)
    (ffmpeg_path : Option String) : Bool × Int :=
  let mode := decide (1 < total_frames) && !output_is_seq && decide (1 < concurrency)
  if mode then
    match ffmpeg_path with
    | none => (false, 1)
    | some _ => (mode, concurrency)
  else (mode, concurrency)

/-- Lines 851-866: segment outputs are generated only under
`single_file_concat_mode and concurrency > 1`. -/
def segment_outputs_for (mode : Bool) (concurrency : Int) (base ext : String)
    (ranges : List (Int × Int)) : List String :=
  if mode && decide (1 < concurrency) then seg_names base ext ranges else []

/-- Line 953: `child_out = segment_outputs[i] if segment_outputs else
local_output_path`. -/
def child_out (segs : List String) (local_out : String) (i : Nat) : String :=
  if segs.isEmpty then local_out else segs.getD i local_out

/-- C4: segmented rendering is engaged iff `total_frames > 1`, the output is a
single file (not a sequence pattern), the worker count exceeds 1 and ffmpeg was
found; when the first three hold but ffmpeg is absent the run falls back to one
worker with no segmentation; when the mode is off every job writes to the local
output path (toward the final target), and when it is on the segment list the
jobs write to is non-empty and the worker count is kept. -/
theorem segmentation_mode_iff :
    ∀ (total : Int) (seq : Bool) (conc : Int) (ff : Option String),
      ((plan_segmentation total seq conc ff).1 = true ↔
        (1 < total ∧ seq = false ∧ 1 < conc ∧ ff.isSome = true)) ∧
      ((1 < total ∧ seq = false ∧ 1 < conc ∧ ff = none) →
        plan_segmentation total seq conc ff = (false, 1)) ∧
      ((plan_segmentation total seq conc ff).1 = false →
        ∀ (b e lo : String) (ranges : List (Int × Int)) (i : Nat),
          child_out (segment_outputs_for (plan_segmentation total seq conc ff).1
            (plan_segmentation total seq conc ff).2 b e ranges) lo i = lo) ∧
      ((plan_segmentation total seq conc ff).1 = true →
        (plan_segmentation total seq conc ff).2 = conc ∧
        ∀ (b e : String) (ranges : List (Int × Int)), ranges ≠ [] →
          (segment_outputs_for (plan_segmentation total seq conc ff).1
            (plan_segmentation total seq conc ff).2 b e ranges).isEmpty = false) := by
  intro total seq conc ff
  cases ff with
  | none =>
    have hplan1 : (plan_segmentation total seq conc none).1 = false := by
      unfold plan_segmentation
      dsimp only
      split
      · rfl
      · next h => simpa using h
    refine ⟨?_, ?_, ?_, ?_⟩
    · rw [hplan1]
      simp
    · rintro ⟨ha, hb, hc, -⟩
      have hmode : (decide (1 < total) && !seq && decide (1 < conc)) = true := by
        simp [ha, hb, hc]
      simp [plan_segmentation, hmode]
    · intro _ b e lo ranges i
      rw [hplan1]
      simp [segment_outputs_for, child_out]
    · intro h
      rw [hplan1] at h
      cases h
  | some f =>
    have hplan : plan_segmentation total seq conc (some f) =
        (decide (1 < total) && !seq && decide (1 < conc), conc) := by
      unfold plan_segmentation
      dsimp only
      split <;> rfl
    rw [hplan]
    refine ⟨?_, ?_, ?_, ?_⟩
    · simp [and_assoc]
    · rintro ⟨-, -, -, hff⟩
      cases hff
    · intro h0 b e lo ranges i
      dsimp only at h0
      simp [segment_outputs_for, child_out, h0]
    · intro h
      dsimp only at h ⊢
      refine ⟨rfl, ?_⟩
      intro b e ranges hr
      have hc : decide (1 < conc) = true := by
        rcases Bool.and_eq_true_iff.mp h with ⟨-, hc⟩
        exact hc
      have hcond : ((decide (1 < total) && !seq && decide (1 < conc)) &&
          decide (1 < conc)) = true := by
        rw [h, hc]
        rfl
      have hseg : segment_outputs_for (decide (1 < total) && !seq && decide (1 < conc))
          conc b e ranges = seg_names b e ranges := by
        unfold segment_outputs_for
        rw [hcond]
        rfl
      rw [hseg]
      rcases ranges with _ | ⟨a, l⟩
      · exact absurd rfl hr
      · rfl

/-- Witness for C4: 10 frames, single-file output, 4 workers, no ffmpeg: the
mode is off and the worker count collapses to 1. -/
theorem segmentation_mode_iff_witness :
    plan_segmentation 10 false 4 none = (false, 1) :=
  (segmentation_mode_iff 10 false 4 none).2.1 ⟨by decide, rfl, by decide, rfl⟩

/-! ## Final exit-code policy (`run_orchestrator`, orchestrator.py lines 939-945,
1031-1037 and 1099-1103) -/

/-- Pids of children whose recorded exit code is non-zero (the `failures` list
filled by the monitor loop at lines 1031-1033; each failing pid is appended
exactly once). -/
def recorded_failures (rcs : List (Nat × Int)) : List Nat :=
  (rcs.filter (fun p => decide (p.2 ≠ 0))).map (fun p => p.1)

/-- `cleanup_resources()` is reached from the failure path only when
`args.kill_on_fail` is set and some failure was recorded (lines 1034-1036). -/
def cleanup_on_fail_invoked (kill_on_fail : Bool) (rcs : List (Nat × Int)) : Bool :=
  kill_on_fail && !(recorded_failures rcs).isEmpty

/-- `stop_children_event` is set only by `cleanup_resources`, which is invoked
from the signal handler (`_sig_handler`, lines 940-945) or from the
kill-on-fail escalation. -/
def stop_event_at_end (interrupted cleanup_on_fail : Bool) : Bool :=
  interrupted || cleanup_on_fail

/-- Lines 1099-1102: `rc = 130 if stop_children_event.is_set() and not failures
else (1 if failures else 0)`. -/
def final_exit_code (stop_set : Bool) (failures : List Nat) : Int :=
  if stop_set && failures.isEmpty then 130
  else if failures.isEmpty then 0 else 1

/-- C5: on the non-stitching completion path the exit code is exactly 130 when
shutdown came from an external interrupt signal with no failure observed, 1
when any job exited non-zero, and 0 otherwise. -/
theorem exit_code_policy :
    ∀ (interrupted kill_on_fail : Bool) (rcs : List (Nat × Int)),
      (interrupted = true → recorded_failures rcs = [] →
        final_exit_code
          (stop_event_at_end interrupted (cleanup_on_fail_invoked kill_on_fail rcs))
          (recorded_failures rcs) = 130) ∧
      ((∃ p ∈ rcs, p.2 ≠ 0) →
        final_exit_code
          (stop_event_at_end interrupted (cleanup_on_fail_invoked kill_on_fail rcs))
          (recorded_failures rcs) = 1) ∧
      (interrupted = false → (∀ p ∈ rcs, p.2 = 0) →
        final_exit_code
          (stop_event_at_end interrupted (cleanup_on_fail_invoked kill_on_fail rcs))
          (recorded_failures rcs) = 0) := by
  intro interrupted kill_on_fail rcs
  refine ⟨?_, ?_, ?_⟩
  · intro hi hf
    simp [final_exit_code, stop_event_at_end, hf, hi]
  · rintro ⟨p, hp, hp2⟩
    have hmem : p.1 ∈ recorded_failures rcs :=
      List.mem_map_of_mem _ (List.mem_filter.mpr ⟨hp, by simpa using hp2⟩)
    have hne : (recorded_failures rcs).isEmpty = false := by
      rcases hq : recorded_failures rcs with _ | ⟨a, l⟩
      · rw [hq] at hmem; cases hmem
      · rfl
    simp [final_exit_code, stop_event_at_end, hne]
  · intro hi hz
    have hf : recorded_failures rcs = [] := by
      simp only [recorded_failures, List.map_eq_nil_iff, List.filter_eq_nil_iff]
      intro p hp
      simpa using hz p hp
    simp [final_exit_code, stop_event_at_end, cleanup_on_fail_invoked, hf, hi]

/-- Witness for C5: one child failed with exit code 1 and no interrupt: the
orchestrator exits 1. -/
theorem exit_code_policy_witness :
    final_exit_code
      (stop_event_at_end false (cleanup_on_fail_invoked false [(100, 1)]))
      (recorded_failures [(100, 1)]) = 1 :=
  (exit_code_policy false false [(100, 1)]).2.1 (by decide)

/-! ## Segmented stitch step (`run_orchestrator` lines 1048-1076 and
`ffmpeg_concat_segments`, orchestrator.py lines 143-283) -/

/-- Shape of a Python function signature as far as call binding is concerned:
positional-or-keyword parameters, required keyword-only parameters (those after
a bare `*` with no default) and optional keyword-only parameters. -/
structure PySig where
  pos_or_kw : List String
  kw_only_required : List String
  kw_only_optional : List String

/-- CPython call binding for such a signature: a call with more positional
arguments than positional-or-keyword parameters raises `TypeError`, as does a
call missing a required keyword-only argument. -/
def bind_py_call (sig : PySig) (n_pos : Nat) (kw_names : List String) : Except String Unit :=
  if sig.pos_or_kw.length < n_pos then
    Except.error "TypeError: too many positional arguments"
  else if !(sig.kw_only_required.all (fun k => kw_names.contains k)) then
    Except.error "TypeError: missing required keyword-only argument"
  else Except.ok ()

/-- Signature of `ffmpeg_concat_segments` (orchestrator.py line 143): declared
`def ffmpeg_concat_segments(*, ffmpeg_path, segments, output_file, work_dir,
log, allow_reencode=True)`, so it accepts zero positional arguments. -/
def ffmpeg_concat_segments_sig : PySig :=
  { pos_or_kw := []
    kw_only_required := ["ffmpeg_path", "segments", "output_file", "work_dir", "log"]
    kw_only_optional := ["allow_reencode"] }

/-- Binding of the call at orchestrator.py line 1066:
`ffmpeg_concat_segments(ffmpeg, segment_outputs, local_output_path, logger)` —
four positional arguments, no keywords. -/
def stitch_call_binding : Except String Unit :=
  bind_py_call ffmpeg_concat_segments_sig 4 []

/-- The finalize step of a segmented run (orchestrator.py lines 1048-1069),
entered after every render job has exited when `segment_outputs` is non-empty:
no ffmpeg at stitch time returns 2; a missing segment file returns 2 (the
scratch directory is left intact); otherwise the source calls
`ffmpeg_concat_segments` — whose binding is modelled by `stitch_call_binding` —
and would return 2 on a `False` result.  `Except.ok (some r)` models an early
`return r`; `Except.error` models an uncaught Python exception. -/
def segmented_finalize (ffmpeg_found : Bool) (segment_exists : List Bool) :
    Except String (Option Int) :=
  if ffmpeg_found = false then Except.ok (some 2)
  else if segment_exists.any (fun b => !b) then Except.ok (some 2)
  else
    match stitch_call_binding with
    | Except.error e => Except.error e
    | Except.ok _ => Except.ok none

/-- C1 (code bug): the missing-segment and missing-ffmpeg paths do return 2,
but the stitch path itself never can: the call at line 1066 passes four
positional arguments to a keyword-only signature (and never passes the
required `work_dir` and `log`), so it raises `TypeError` before ffmpeg runs,
and the `return 2` after a failed stitch at line 1069 is unreachable. -/
theorem stitch_call_raises_type_error :
    stitch_call_binding = Except.error "TypeError: too many positional arguments" ∧
    segmented_finalize true [true, true] =
      Except.error "TypeError: too many positional arguments" ∧
    segmented_finalize true [true, false] = Except.ok (some 2) ∧
    segmented_finalize false [true, true] = Except.ok (some 2) :=
  ⟨rfl, rfl, rfl, rfl⟩

/-! ## Output-pattern matcher (`build_output_matcher`, orchestrator.py lines
44-90) -/

/-- A file as the offloader sees it: a name and some contents.  The matchers
below only ever look at the name. -/
structure PFile where
  name : String
  contents : List Nat

/-- Case folding used by the `re.IGNORECASE` matchers and the exact-name
comparison (`.lower()`); ASCII suffices for the claims checked here. -/
def lower_chars (cs : List Char) : List Char := cs.map Char.toLower

/-- `Path(output_spec).name`: the part of the path after the last slash
(POSIX semantics). -/
def path_name (s : String) : String :=
  String.mk ((s.toList.reverse.takeWhile (fun c => c ≠ '/')).reverse)

/-- Value of a digit run, as `int(...)` computes it. -/
def digits_to_nat (ds : List Char) : Nat :=
  ds.foldl (fun a c => a * 10 + (c.toNat - '0'.toNat)) 0

/-- Match of `re.match(r"(.*)\[([#0]+)\](.*)", base)`: the greedy leading
group selects the rightmost position where a non-empty run of `#`/`0` sits
between `[` and `]`; returns (prefix characters, token length, suffix
characters). -/
def bracket_split : List Char → Option (List Char × Nat × List Char)
  | [] => none
  | c :: rest =>
    match bracket_split rest with
    | some (p, d, s) => some (c :: p, d, s)
    | none =>
      if c = '[' then
        let run := rest.takeWhile (fun x => x = '#' || x = '0')
        if run.isEmpty then none
        else
          match rest.drop run.length with
          | ']' :: tail => some ([], run.length, tail)
          | _ => none
      else none

/-- Attempted match of `re.match(r"(.*?)(#{3,})(\.[^.]*)?$", base)` at the
current position: a maximal run of at least three `#` characters followed
either by the end of the name or by a final dot-extension containing no
further dot.  (`#{3,}` is greedy and cannot backtrack into a `.` or `$`.) -/
def hash_try (cs : List Char) : Option (Nat × List Char) :=
  let run := cs.takeWhile (fun x => x = '#')
  if run.length < 3 then none
  else
    match cs.drop run.length with
    | [] => some (run.length, [])
    | '.' :: t => if t.contains '.' then none else some (run.length, '.' :: t)
    | _ => none

/-- The lazy leading group `(.*?)` makes the hash regex take the leftmost
position where `hash_try` succeeds. -/
def hash_scan : List Char → Option (List Char × Nat × List Char)
  | [] => none
  | c :: rest =>
    match hash_try (c :: rest) with
    | some (d, ext) => some ([], d, ext)
    | none =>
      match hash_scan rest with
      | some (p, d, s) => some (c :: p, d, s)
      | none => none

/-- Match of `re.match(r"(.*)%0?(\d*)d(.*)", base)`: the greedy leading group
selects the rightmost `%`, the optional `0` is consumed if present, then a
digit run, then a literal `d`.  An empty digit group means width 1
(`int(digits_s) if digits_s else 1`). -/
def printf_split : List Char → Option (List Char × Nat × List Char)
  | [] => none
  | c :: rest =>
    match printf_split rest with
    | some (p, d, s) => some (c :: p, d, s)
    | none =>
      if c = '%' then
        let rest2 := if rest.head? = some '0' then rest.tail else rest
        let ds := rest2.takeWhile Char.isDigit
        match rest2.drop ds.length with
        | 'd' :: tail => some ([], if ds.isEmpty then 1 else digits_to_nat ds, tail)
        | _ => none
      else none

/-- The predicate built by `build_output_matcher`: either a case-insensitive
`^prefix\d{digits}suffix$` test (all three numeric branches compile to this
shape) or a case-insensitive exact-name comparison. -/
inductive OutputMatcher where
  | fixedPat (pre : List Char) (digits : Nat) (suf : List Char)
  | exactName (base : List Char)

/-- `build_output_matcher(output_spec)` from orchestrator.py lines 53-90:
classification tries the bracket form, then the hash form, then the printf
form, else falls back to exact (case-insensitive) filename equality. -/
def build_output_matcher (output_spec : String) : OutputMatcher :=
  let base := (path_name output_spec).toList
  match bracket_split base with
  | some (p, d, s) => OutputMatcher.fixedPat p d s
  | none =>
    match hash_scan base with
    | some (p, d, ext) => OutputMatcher.fixedPat p d ext
    | none =>
      match printf_split base with
      | some (p, d, s) => OutputMatcher.fixedPat p d s
      | none => OutputMatcher.exactName base

/-- Evaluation of the compiled regex `^prefix\d{digits}suffix$` (IGNORECASE)
on a candidate file name: fixed-width pattern, so matching is positional. -/
def match_name : OutputMatcher → List Char → Bool
  | OutputMatcher.fixedPat p d s, n =>
    decide (n.length = p.length + d + s.length) &&
    (lower_chars (n.take p.length) == lower_chars p) &&
    ((n.drop p.length).take d).all Char.isDigit &&
    (lower_chars (n.drop (p.length + d)) == lower_chars s)
  | OutputMatcher.exactName b, n => lower_chars n == lower_chars b

/-- The matcher applied to a file: `lambda p: bool(rx.match(p.name))` — a pure
function of the file name. -/
def run_matcher (m : OutputMatcher) (f : PFile) : Bool :=
  match_name m f.name.toList

/-- C6: the matcher built from `name_[#####].png` accepts `name_00042.png` and
rejects `name_42.png` and `other_00042.png`; the matcher built from
`name%04d.mov` accepts `name0007.mov` and rejects `name7.mov`; and every
matcher is a pure structural test on the name, independent of file contents. -/
theorem output_matcher_cases :
    run_matcher (build_output_matcher "name_[#####].png") ⟨"name_00042.png", [1, 2]⟩ = true ∧
    run_matcher (build_output_matcher "name_[#####].png") ⟨"name_42.png", [1, 2]⟩ = false ∧
    run_matcher (build_output_matcher "name_[#####].png") ⟨"other_00042.png", [1, 2]⟩ = false ∧
    run_matcher (build_output_matcher "name%04d.mov") ⟨"name0007.mov", [3]⟩ = true ∧
    run_matcher (build_output_matcher "name%04d.mov") ⟨"name7.mov", [3]⟩ = false ∧
    (∀ (m : OutputMatcher) (nm : String) (c1 c2 : List Nat),
      run_matcher m ⟨nm, c1⟩ = run_matcher m ⟨nm, c2⟩) :=
  ⟨by decide, by decide, by decide, by decide, by decide, fun m nm c1 c2 => rfl⟩

/-! ## Affinity planner (`build_affinity_blocks`, orchestrator.py lines 594-607) -/

/-- Order-preserving deduplication keeping the first occurrence, as
`list(dict.fromkeys(all_cpus))` computes it (also reused below for the kill
tool's Python `set`): walk the list with the set of already-seen elements. -/
def dedup_first_aux {α : Type} [DecidableEq α] (seen : List α) : List α → List α
  | [] => []
  | x :: xs =>
    if x ∈ seen then dedup_first_aux seen xs
    else x :: dedup_first_aux (x :: seen) xs

/-- `list(dict.fromkeys(l))`. -/
def dedup_first {α : Type} [DecidableEq α] (l : List α) : List α :=
  dedup_first_aux [] l

theorem mem_dedup_first_aux {α : Type} [DecidableEq α] :
    ∀ (l seen : List α) (a : α), a ∈ dedup_first_aux seen l ↔ a ∈ l ∧ a ∉ seen := by
  intro l
  induction l with
  | nil => intro seen a; simp [dedup_first_aux]
  | cons x xs ih =>
    intro seen a
    rw [dedup_first_aux]
    by_cases hx : x ∈ seen
    · rw [if_pos hx, ih]
      constructor
      · rintro ⟨h1, h2⟩
        exact ⟨List.mem_cons_of_mem _ h1, h2⟩
      · rintro ⟨h1, h2⟩
        rcases List.mem_cons.mp h1 with rfl | h3
        · exact absurd hx h2
        · exact ⟨h3, h2⟩
    · rw [if_neg hx]
      constructor
      · intro h
        rcases List.mem_cons.mp h with rfl | h2
        · exact ⟨List.mem_cons_self _ _, hx⟩
        · obtain ⟨h3, h4⟩ := (ih _ a).mp h2
          exact ⟨List.mem_cons_of_mem _ h3,
            fun hc => h4 (List.mem_cons_of_mem _ hc)⟩
      · rintro ⟨h1, h2⟩
        rcases List.mem_cons.mp h1 with rfl | h3
        · exact List.mem_cons_self _ _
        · by_cases hax : a = x
          · exact hax ▸ List.mem_cons_self _ _
          · refine List.mem_cons_of_mem _ ((ih _ a).mpr ⟨h3, ?_⟩)
            intro hc
            rcases List.mem_cons.mp hc with h | h
            · exact hax h
            · exact h2 h

theorem mem_dedup_first {α : Type} [DecidableEq α] (l : List α) (a : α) :
    a ∈ dedup_first l ↔ a ∈ l := by
  rw [dedup_first, mem_dedup_first_aux]
  simp

theorem nodup_dedup_first_aux {α : Type} [DecidableEq α] :
    ∀ (l seen : List α), (dedup_first_aux seen l).Nodup := by
  intro l
  induction l with
  | nil => intro seen; exact List.nodup_nil
  | cons x xs ih =>
    intro seen
    rw [dedup_first_aux]
    by_cases hx : x ∈ seen
    · rw [if_pos hx]
      exact ih seen
    · rw [if_neg hx]
      refine List.nodup_cons.mpr ⟨?_, ih _⟩
      intro hc
      exact ((mem_dedup_first_aux xs (x :: seen) x).mp hc).2 (List.mem_cons_self _ _)

theorem nodup_dedup_first {α : Type} [DecidableEq α] (l : List α) :
    (dedup_first l).Nodup :=
  nodup_dedup_first_aux l []

/-- Flattening `for p in pools: all_cpus.extend(p)` starting from the empty
accumulator. -/
def flatten_pools (pools : List (List Int)) : List Int :=
  pools.foldl (fun acc p => acc ++ p) []

theorem mem_foldl_append (pools : List (List Int)) :
    ∀ (init : List Int) (x : Int),
      x ∈ pools.foldl (fun acc p => acc ++ p) init ↔ x ∈ init ∨ ∃ p ∈ pools, x ∈ p := by
  induction pools with
  | nil => intro init x; simp
  | cons q qs ih =>
    intro init x
    simp only [List.foldl_cons]
    rw [ih]
    simp only [List.mem_append, List.mem_cons]
    constructor
    · rintro ((h | h) | h)
      · exact Or.inl h
      · exact Or.inr ⟨q, Or.inl rfl, h⟩
      · obtain ⟨p, hp, hx⟩ := h
        exact Or.inr ⟨p, Or.inr hp, hx⟩
    · rintro (h | ⟨p, (rfl | hp), hx⟩)
      · exact Or.inl (Or.inl h)
      · exact Or.inl (Or.inr hx)
      · exact Or.inr ⟨p, hp, hx⟩

theorem mem_flatten_pools (pools : List (List Int)) (x : Int) :
    x ∈ flatten_pools pools ↔ ∃ p ∈ pools, x ∈ p := by
  rw [flatten_pools, mem_foldl_append]
  simp

/-- Round-robin distribution loop of `build_affinity_blocks`:
`for i, cpu in enumerate(all_cpus): blocks[i % concurrency].append(cpu)`. -/
def rr_loop (n : Nat) : List Int → Nat → List (List Int) → List (List Int)
  | [], _, blocks => blocks
  | x :: xs, i, blocks =>
    rr_loop n xs (i + 1) (blocks.set (i % n) (blocks.getD (i % n) [] ++ [x]))

/-- Closed form of the contents block `j` receives from the loop: the ids whose
running index is congruent to `j` modulo `n`, in order. -/
def rr_closed (n j : Nat) : List Int → Nat → List Int
  | [], _ => []
  | x :: xs, i => (if i % n = j then [x] else []) ++ rr_closed n j xs (i + 1)

theorem rr_loop_length (n : Nat) :
    ∀ (l : List Int) (i : Nat) (blocks : List (List Int)),
      (rr_loop n l i blocks).length = blocks.length := by
  intro l
  induction l with
  | nil => intro i blocks; rfl
  | cons x xs ih =>
    intro i blocks
    rw [rr_loop, ih, List.length_set]

theorem rr_loop_getD (n : Nat) (hn : 0 < n) :
    ∀ (l : List Int) (i : Nat) (blocks : List (List Int)), blocks.length = n →
      ∀ j, j < n →
        (rr_loop n l i blocks).getD j [] = blocks.getD j [] ++ rr_closed n j l i := by
  intro l
  induction l with
  | nil => intro i blocks hb j hj; simp [rr_loop, rr_closed]
  | cons x xs ih =>
    intro i blocks hb j hj
    rw [rr_loop, ih (i + 1) _ (by rw [List.length_set, hb]) j hj, rr_closed]
    have him : i % n < blocks.length := by rw [hb]; exact Nat.mod_lt _ hn
    by_cases hij : i % n = j
    · subst hij
      rw [if_pos rfl]
      have hset : (blocks.set (i % n) (blocks.getD (i % n) [] ++ [x])).getD (i % n) [] =
          blocks.getD (i % n) [] ++ [x] := by
        rw [List.getD_eq_getElem?_getD, List.getElem?_set, if_pos rfl, if_pos him]
        rfl
      rw [hset, List.append_assoc]
    · rw [if_neg hij]
      have hset : (blocks.set (i % n) (blocks.getD (i % n) [] ++ [x])).getD j [] =
          blocks.getD j [] := by
        rw [List.getD_eq_getElem?_getD, List.getElem?_set, if_neg hij,
          ← List.getD_eq_getElem?_getD]
      rw [hset, List.nil_append]

theorem mem_rr_closed (n j : Nat) :
    ∀ (l : List Int) (i : Nat) (x : Int),
      x ∈ rr_closed n j l i ↔ ∃ k, k < l.length ∧ (i + k) % n = j ∧ l.getD k 0 = x := by
  intro l
  induction l with
  | nil => intro i x; simp [rr_closed]
  | cons y ys ih =>
    intro i x
    rw [rr_closed]
    simp only [List.mem_append]
    constructor
    · rintro (h | h)
      · split at h
        · next hij =>
          rcases List.mem_singleton.mp h with rfl
          exact ⟨0, by simp, by simpa using hij, rfl⟩
        · cases h
      · obtain ⟨k, hk, hkn, hkx⟩ := (ih (i + 1) x).mp h
        refine ⟨k + 1, by simpa using hk, ?_, by simpa using hkx⟩
        have he : i + (k + 1) = (i + 1) + k := by omega
        rw [he]
        exact hkn
    · rintro ⟨k, hk, hkn, hkx⟩
      cases k with
      | zero =>
        left
        have hij : i % n = j := by simpa using hkn
        rw [if_pos hij]
        simpa using hkx.symm
      | succ m =>
        right
        refine (ih (i + 1) x).mpr ⟨m, by simpa using hk, ?_, by simpa using hkx⟩
        have he : (i + 1) + m = i + (m + 1) := by omega
        rw [he]
        exact hkn

/-- `build_affinity_blocks(concurrency, pools)` from orchestrator.py: empty for
a non-positive worker count, empty when the deduplicated flattened pools hold
no CPU id, else `concurrency` blocks filled round-robin. -/
def build_affinity_blocks (concurrency : Int) (pools : List (List Int)) : List (List Int) :=
  if concurrency ≤ 0 then []
  else
    let all_cpus := dedup_first (flatten_pools pools)
    if all_cpus.isEmpty then []
    else rr_loop concurrency.toNat all_cpus 0 (List.replicate concurrency.toNat [])

/-- The affinity coverage property claimed for `build_affinity_blocks`: no CPU
id lands in two distinct blocks; every id present in the pools lands in exactly
one block; and the i-th id of the deduplicated order-preserving flattening goes
to block `i mod worker_count`. -/
def AffinityBlocksSpec (c : Int) (pools : List (List Int)) : Prop :=
  let blocks := build_affinity_blocks c pools
  let ids := dedup_first (flatten_pools pools)
  (∀ j k : Nat, j ≠ k → ∀ x : Int, x ∈ blocks.getD j [] → x ∉ blocks.getD k []) ∧
  (∀ x : Int, (∃ p ∈ pools, x ∈ p) →
    ∃ j : Nat, j < blocks.length ∧ x ∈ blocks.getD j [] ∧
      ∀ k : Nat, k ≠ j → x ∉ blocks.getD k []) ∧
  (∀ i : Nat, i < ids.length → ids.getD i 0 ∈ blocks.getD (i % c.toNat) [])

/-- C7: for every worker count `c ≥ 1` and non-empty pool list, the affinity
blocks are pairwise disjoint, cover every pooled CPU id exactly once, and
follow the round-robin law. -/
theorem build_affinity_blocks_cover (c : Int) (pools : List (List Int))
    (hc : 1 ≤ c) (_hpools : pools ≠ []) : AffinityBlocksSpec c pools := by
  simp only [AffinityBlocksSpec]
  set n := c.toNat with hndef
  have hn : 0 < n := by omega
  set ids := dedup_first (flatten_pools pools) with hids
  have hblocks : build_affinity_blocks c pools =
      (if ids.isEmpty then [] else rr_loop n ids 0 (List.replicate n [])) := by
    simp only [build_affinity_blocks]
    rw [if_neg (by omega : ¬ c ≤ 0)]
  by_cases hemp : ids.isEmpty
  · rw [hblocks, if_pos hemp]
    have hids_nil : ids = [] := List.isEmpty_iff.mp hemp
    refine ⟨?_, ?_, ?_⟩
    · intro j k _ x hx
      simp at hx
    · intro x hx
      obtain ⟨p, hp, hxp⟩ := hx
      have : x ∈ ids := (mem_dedup_first _ x).mpr ((mem_flatten_pools pools x).mpr ⟨p, hp, hxp⟩)
      rw [hids_nil] at this
      cases this
    · intro i hi
      rw [hids_nil] at hi
      cases hi
  · rw [hblocks, if_neg hemp]
    have hlen : (rr_loop n ids 0 (List.replicate n [])).length = n := by
      rw [rr_loop_length, List.length_replicate]
    have hrep : ∀ j, j < n → (List.replicate n ([] : List Int)).getD j [] = [] := by
      intro j hj
      rw [List.getD_eq_getElem?_getD, List.getElem?_replicate, if_pos hj]
      rfl
    have hget : ∀ j, j < n →
        (rr_loop n ids 0 (List.replicate n [])).getD j [] = rr_closed n j ids 0 := by
      intro j hj
      rw [rr_loop_getD n hn ids 0 _ (List.length_replicate _ _) j hj, hrep j hj,
        List.nil_append]
    have hout : ∀ j, n ≤ j → (rr_loop n ids 0 (List.replicate n [])).getD j [] = [] := by
      intro j hj
      exact List.getD_eq_default _ _ (by rw [hlen]; omega)
    have hgd : ∀ (k : Nat) (hk : k < ids.length), ids.getD k 0 = ids[k] := by
      intro k hk
      rw [List.getD_eq_getElem?_getD, List.getElem?_eq_getElem hk]
      rfl
    have hmem : ∀ j, j < n → ∀ x : Int,
        (x ∈ (rr_loop n ids 0 (List.replicate n [])).getD j [] ↔
          ∃ k, k < ids.length ∧ k % n = j ∧ ids.getD k 0 = x) := by
      intro j hj x
      rw [hget j hj, mem_rr_closed]
      simp
    have hdisj : ∀ j k : Nat, j ≠ k → ∀ x : Int,
        x ∈ (rr_loop n ids 0 (List.replicate n [])).getD j [] →
        x ∉ (rr_loop n ids 0 (List.replicate n [])).getD k [] := by
      intro j k hjk x hxj hxk
      by_cases hjn : j < n
      · by_cases hkn : k < n
        · obtain ⟨k1, hk1, hk1n, hk1x⟩ := (hmem j hjn x).mp hxj
          obtain ⟨k2, hk2, hk2n, hk2x⟩ := (hmem k hkn x).mp hxk
          rw [hgd k1 hk1] at hk1x
          rw [hgd k2 hk2] at hk2x
          have hkk : k1 = k2 :=
            ((nodup_dedup_first (flatten_pools pools)).getElem_inj_iff).mp
              (by rw [hk1x, hk2x])
          exact hjk (by rw [← hk1n, ← hk2n, hkk])
        · rw [hout k (by omega)] at hxk
          cases hxk
      · rw [hout j (by omega)] at hxj
        cases hxj
    refine ⟨hdisj, ?_, ?_⟩
    · intro x hx
      obtain ⟨p, hp, hxp⟩ := hx
      have hxids : x ∈ ids :=
        (mem_dedup_first _ x).mpr ((mem_flatten_pools pools x).mpr ⟨p, hp, hxp⟩)
      obtain ⟨k, hk, hkx⟩ := List.mem_iff_getElem.mp hxids
      have hkn : k % n < n := Nat.mod_lt _ hn
      refine ⟨k % n, by rw [hlen]; exact hkn, ?_, ?_⟩
      · exact (hmem (k % n) hkn x).mpr ⟨k, hk, rfl, by rw [hgd k hk]; exact hkx⟩
      · intro k2 hk2
        exact fun hmem2 => hdisj (k % n) k2 (fun he => hk2 he.symm) x
          ((hmem (k % n) hkn x).mpr ⟨k, hk, rfl, by rw [hgd k hk]; exact hkx⟩) hmem2
    · intro i hi
      have hin : i % n < n := Nat.mod_lt _ hn
      exact (hmem (i % n) hin _).mpr ⟨i, hi, rfl, rfl⟩

/-- Witness for C7 with two workers and pools `[[0,1,2],[1,3]]` (deduplicated
flattening `[0,1,2,3]`, blocks `[[0,2],[1,3]]`). -/
theorem build_affinity_blocks_cover_witness :
    (1 : Int) ≤ 2 ∧ ([[0, 1, 2], [1, 3]] : List (List Int)) ≠ [] ∧
      AffinityBlocksSpec 2 [[0, 1, 2], [1, 3]] :=
  ⟨by decide, by decide,
    build_affinity_blocks_cover 2 [[0, 1, 2], [1, 3]] (by decide) (by decide)⟩

/-! ## Offloader (`offload_loop`, orchestrator.py lines 644-678) -/

/-- Python `str.lower()`. -/
def str_lower (s : String) : String := String.mk (lower_chars s.toList)

/-- The key recorded in the `copied` set for a file name: lower-cased on the
case-insensitive platform (`p.name.lower() if sys.platform == "win32" else
p.name`, line 662). -/
def offload_key (case_insensitive : Bool) (name : String) : String :=
  if case_insensitive then str_lower name else name

/-- One pass of the offload loop body (lines 655-671) over a directory
listing: files failing the matcher are skipped, files whose key is already
recorded are skipped, otherwise the copy is attempted; only a successful copy
records the key (`copied.add(key)` sits after `shutil.copy2`; a failure is
logged and left for the next tick).  Returns the updated recorded set and the
list of files successfully copied during the pass, in order. -/
def offload_pass (ci : Bool) (matcher copy_ok : String → Bool) :
    List String → List String → List String × List String
  | [], copied => (copied, [])
  | f :: fs, copied =>
    if matcher f = false then offload_pass ci matcher copy_ok fs copied
    else if offload_key ci f ∈ copied then offload_pass ci matcher copy_ok fs copied
    else if copy_ok f then
      ((offload_pass ci matcher copy_ok fs (offload_key ci f :: copied)).1,
        f :: (offload_pass ci matcher copy_ok fs (offload_key ci f :: copied)).2)
    else offload_pass ci matcher copy_ok fs copied

theorem offload_pass_copied_mono (ci : Bool) (matcher cok : String → Bool) :
    ∀ (fs copied : List String) (k : String), k ∈ copied →
      k ∈ (offload_pass ci matcher cok fs copied).1 := by
  intro fs
  induction fs with
  | nil => intro copied k hk; exact hk
  | cons g gs ih =>
    intro copied k hk
    rw [offload_pass]
    by_cases hm : matcher g = false
    · rw [if_pos hm]; exact ih copied k hk
    · rw [if_neg hm]
      by_cases hcp : offload_key ci g ∈ copied
      · rw [if_pos hcp]; exact ih copied k hk
      · rw [if_neg hcp]
        by_cases hok : cok g = true
        · rw [if_pos hok]
          exact ih _ k (List.mem_cons_of_mem _ hk)
        · rw [if_neg hok]; exact ih copied k hk

theorem offload_pass_not_copied (ci : Bool) (matcher cok : String → Bool) (f : String) :
    ∀ (fs copied : List String), offload_key ci f ∈ copied →
      f ∉ (offload_pass ci matcher cok fs copied).2 := by
  intro fs
  induction fs with
  | nil => intro copied hk h; cases h
  | cons g gs ih =>
    intro copied hk
    rw [offload_pass]
    by_cases hm : matcher g = false
    · rw [if_pos hm]; exact ih copied hk
    · rw [if_neg hm]
      by_cases hcp : offload_key ci g ∈ copied
      · rw [if_pos hcp]; exact ih copied hk
      · rw [if_neg hcp]
        by_cases hok : cok g = true
        · rw [if_pos hok]
          intro hmem
          rcases List.mem_cons.mp hmem with rfl | hmem2
          · exact hcp hk
          · exact ih _ (List.mem_cons_of_mem _ hk) hmem2
        · rw [if_neg hok]; exact ih copied hk

theorem offload_pass_mem_perf (ci : Bool) (matcher cok : String → Bool) (f : String) :
    ∀ (fs copied : List String), f ∈ (offload_pass ci matcher cok fs copied).2 →
      f ∈ fs ∧ matcher f = true := by
  intro fs
  induction fs with
  | nil => intro copied h; cases h
  | cons g gs ih =>
    intro copied
    rw [offload_pass]
    by_cases hm : matcher g = false
    · rw [if_pos hm]
      intro h
      obtain ⟨h1, h2⟩ := ih copied h
      exact ⟨List.mem_cons_of_mem _ h1, h2⟩
    · rw [if_neg hm]
      by_cases hcp : offload_key ci g ∈ copied
      · rw [if_pos hcp]
        intro h
        obtain ⟨h1, h2⟩ := ih copied h
        exact ⟨List.mem_cons_of_mem _ h1, h2⟩
      · rw [if_neg hcp]
        by_cases hok : cok g = true
        · rw [if_pos hok]
          intro h
          rcases List.mem_cons.mp h with rfl | h2
          · exact ⟨List.mem_cons_self _ _, Bool.not_eq_false _ |>.mp hm⟩
          · obtain ⟨h1, h2⟩ := ih _ h2
            exact ⟨List.mem_cons_of_mem _ h1, h2⟩
        · rw [if_neg hok]
          intro h
          obtain ⟨h1, h2⟩ := ih copied h
          exact ⟨List.mem_cons_of_mem _ h1, h2⟩

theorem offload_pass_copied_src (ci : Bool) (matcher cok : String → Bool) :
    ∀ (fs copied : List String) (k : String),
      k ∈ (offload_pass ci matcher cok fs copied).1 →
      k ∈ copied ∨ ∃ g, g ∈ fs ∧ matcher g = true ∧ cok g = true ∧ offload_key ci g = k := by
  intro fs
  induction fs with
  | nil => intro copied k h; exact Or.inl h
  | cons g gs ih =>
    intro copied k
    rw [offload_pass]
    by_cases hm : matcher g = false
    · rw [if_pos hm]
      intro h
      rcases ih copied k h with h1 | ⟨g2, hg2, hrest⟩
      · exact Or.inl h1
      · exact Or.inr ⟨g2, List.mem_cons_of_mem _ hg2, hrest⟩
    · rw [if_neg hm]
      by_cases hcp : offload_key ci g ∈ copied
      · rw [if_pos hcp]
        intro h
        rcases ih copied k h with h1 | ⟨g2, hg2, hrest⟩
        · exact Or.inl h1
        · exact Or.inr ⟨g2, List.mem_cons_of_mem _ hg2, hrest⟩
      · rw [if_neg hcp]
        by_cases hok : cok g = true
        · rw [if_pos hok]
          intro h
          rcases ih _ k h with h1 | ⟨g2, hg2, hrest⟩
          · rcases List.mem_cons.mp h1 with rfl | h2
            · exact Or.inr ⟨g, List.mem_cons_self _ _,
                Bool.not_eq_false _ |>.mp hm, hok, rfl⟩
            · exact Or.inl h2
          · exact Or.inr ⟨g2, List.mem_cons_of_mem _ hg2, hrest⟩
        · rw [if_neg hok]
          intro h
          rcases ih copied k h with h1 | ⟨g2, hg2, hrest⟩
          · exact Or.inl h1
          · exact Or.inr ⟨g2, List.mem_cons_of_mem _ hg2, hrest⟩

theorem offload_pass_perf_eq (ci : Bool) (matcher : String → Bool) :
    ∀ (fs copied : List String),
      ((fs.filter (fun f => matcher f)).map (offload_key ci)).Nodup →
      (∀ f, f ∈ fs → matcher f = true → offload_key ci f ∉ copied) →
      (offload_pass ci matcher (fun _ => true) fs copied).2 =
        fs.filter (fun f => matcher f) := by
  intro fs
  induction fs with
  | nil => intro copied _ _; rfl
  | cons g gs ih =>
    intro copied hnd hfresh
    rw [offload_pass]
    by_cases hm : matcher g = false
    · rw [if_pos hm, List.filter_cons_of_neg (by simp [hm])]
      refine ih copied ?_ ?_
      · rwa [List.filter_cons_of_neg (by simp [hm])] at hnd
      · intro f hf hmf
        exact hfresh f (List.mem_cons_of_mem _ hf) hmf
    · have hm2 : matcher g = true := Bool.not_eq_false _ |>.mp hm
      rw [if_neg hm]
      rw [if_neg (hfresh g (List.mem_cons_self _ _) hm2), if_pos rfl]
      rw [List.filter_cons_of_pos (by simp [hm2])]
      rw [List.filter_cons_of_pos (by simp [hm2])] at hnd
      rw [List.map_cons, List.nodup_cons] at hnd
      dsimp only
      congr 1
      refine ih _ hnd.2 ?_
      intro f hf hmf
      intro hin
      rcases List.mem_cons.mp hin with heq | hin2
      · exact hnd.1 (heq ▸ List.mem_map_of_mem _ (List.mem_filter.mpr ⟨hf, by simp [hmf]⟩))
      · exact hfresh f (List.mem_cons_of_mem _ hf) hmf hin2

theorem offload_pass_all_ok_copied (ci : Bool) (matcher : String → Bool) :
    ∀ (fs copied : List String) (k : String),
      k ∈ (offload_pass ci matcher (fun _ => true) fs copied).1 ↔
        k ∈ copied ∨ ∃ g, g ∈ fs ∧ matcher g = true ∧ offload_key ci g = k := by
  intro fs
  induction fs with
  | nil => intro copied k; simp [offload_pass]
  | cons g gs ih =>
    intro copied k
    rw [offload_pass]
    by_cases hm : matcher g = false
    · rw [if_pos hm, ih]
      constructor
      · rintro (h | ⟨g2, hg2, hrest⟩)
        · exact Or.inl h
        · exact Or.inr ⟨g2, List.mem_cons_of_mem _ hg2, hrest⟩
      · rintro (h | ⟨g2, hg2, hmg2, hkg2⟩)
        · exact Or.inl h
        · rcases List.mem_cons.mp hg2 with rfl | hg3
          · rw [hmg2] at hm; cases hm
          · exact Or.inr ⟨g2, hg3, hmg2, hkg2⟩
    · have hm2 : matcher g = true := Bool.not_eq_false _ |>.mp hm
      rw [if_neg hm]
      by_cases hcp : offload_key ci g ∈ copied
      · rw [if_pos hcp, ih]
        constructor
        · rintro (h | ⟨g2, hg2, hrest⟩)
          · exact Or.inl h
          · exact Or.inr ⟨g2, List.mem_cons_of_mem _ hg2, hrest⟩
        · rintro (h | ⟨g2, hg2, hmg2, hkg2⟩)
          · exact Or.inl h
          · rcases List.mem_cons.mp hg2 with rfl | hg3
            · exact Or.inl (hkg2 ▸ hcp)
            · exact Or.inr ⟨g2, hg3, hmg2, hkg2⟩
      · rw [if_neg hcp, if_pos rfl]
        dsimp only
        rw [ih]
        constructor
        · rintro (h | ⟨g2, hg2, hrest⟩)
          · rcases List.mem_cons.mp h with heq | h2
            · exact Or.inr ⟨g, List.mem_cons_self _ _, hm2, heq.symm⟩
            · exact Or.inl h2
          · exact Or.inr ⟨g2, List.mem_cons_of_mem _ hg2, hrest⟩
        · rintro (h | ⟨g2, hg2, hmg2, hkg2⟩)
          · exact Or.inl (List.mem_cons_of_mem _ h)
          · rcases List.mem_cons.mp hg2 with rfl | hg3
            · exact Or.inl (hkg2 ▸ List.mem_cons_self _ _)
            · exact Or.inr ⟨g2, hg3, hmg2, hkg2⟩

theorem offload_pass_skip_all (ci : Bool) (matcher cok : String → Bool) :
    ∀ (fs copied : List String),
      (∀ f, f ∈ fs → matcher f = true → offload_key ci f ∈ copied) →
      (offload_pass ci matcher cok fs copied).2 = [] := by
  intro fs
  induction fs with
  | nil => intro copied _; rfl
  | cons g gs ih =>
    intro copied hall
    rw [offload_pass]
    by_cases hm : matcher g = false
    · rw [if_pos hm]
      exact ih copied (fun f hf => hall f (List.mem_cons_of_mem _ hf))
    · have hm2 : matcher g = true := Bool.not_eq_false _ |>.mp hm
      rw [if_neg hm, if_pos (hall g (List.mem_cons_self _ _) hm2)]
      exact ih copied (fun f hf => hall f (List.mem_cons_of_mem _ hf))

theorem offload_pass_retry (ci : Bool) (matcher : String → Bool) (f : String) :
    ∀ (fs copied : List String),
      ((fs.filter (fun g => matcher g)).map (offload_key ci)).Nodup →
      f ∈ fs → matcher f = true → offload_key ci f ∉ copied →
      f ∈ (offload_pass ci matcher (fun _ => true) fs copied).2 := by
  intro fs
  induction fs with
  | nil => intro copied _ hf; cases hf
  | cons g gs ih =>
    intro copied hnd hf hmf hfresh
    rw [offload_pass]
    rcases List.mem_cons.mp hf with rfl | hf2
    · rw [if_neg (by simp [hmf]), if_neg hfresh, if_pos rfl]
      exact List.mem_cons_self _ _
    · by_cases hm : matcher g = false
      · rw [if_pos hm]
        refine ih copied ?_ hf2 hmf hfresh
        rwa [List.filter_cons_of_neg (by simp [hm])] at hnd
      · have hm2 : matcher g = true := Bool.not_eq_false _ |>.mp hm
        rw [List.filter_cons_of_pos (by simp [hm2]), List.map_cons,
          List.nodup_cons] at hnd
        rw [if_neg hm]
        by_cases hcp : offload_key ci g ∈ copied
        · rw [if_pos hcp]
          exact ih copied hnd.2 hf2 hmf hfresh
        · rw [if_neg hcp, if_pos rfl]
          refine List.mem_cons_of_mem _ (ih _ hnd.2 hf2 hmf ?_)
          intro hin
          rcases List.mem_cons.mp hin with heq | hin2
          · exact hnd.1 (heq ▸ List.mem_map_of_mem _
              (List.mem_filter.mpr ⟨hf2, by simp [hmf]⟩))
          · exact hfresh hin2

/-- The idempotent-offload property: with every copy succeeding, the first pass
over an unchanged directory copies exactly the matching files, each exactly
once, and a second pass copies nothing; a file whose copy attempt failed is not
recorded and is copied by a later pass; and a file whose recorded key is
already present is never copied again (on the case-insensitive platform the
key is the lower-cased name). -/
def OffloadIdempotent (ci : Bool) (matcher copy1 : String → Bool)
    (files : List String) : Prop :=
  (offload_pass ci matcher (fun _ => true) files []).2 =
      files.filter (fun f => matcher f) ∧
  (∀ f, f ∈ files → matcher f = true →
    (offload_pass ci matcher (fun _ => true) files []).2.count f = 1) ∧
  (offload_pass ci matcher (fun _ => true) files
      (offload_pass ci matcher (fun _ => true) files []).1).2 = [] ∧
  (∀ f, f ∈ files → matcher f = true → copy1 f = false →
    offload_key ci f ∉ (offload_pass ci matcher copy1 files []).1 ∧
    f ∈ (offload_pass ci matcher (fun _ => true) files
          (offload_pass ci matcher copy1 files []).1).2) ∧
  (∀ (f : String) (fs copied : List String) (cok : String → Bool),
    offload_key ci f ∈ copied → f ∉ (offload_pass ci matcher cok fs copied).2) ∧
  (∀ f : String, offload_key true f = str_lower f)

/-- C8: over an unchanged directory whose (matching) file keys are distinct —
as directory listings are — the offload pass is idempotent, failures are
retried rather than recorded, and the recorded test works on the lower-cased
key on the case-insensitive platform. -/
theorem offload_pass_idempotent (ci : Bool) (matcher copy1 : String → Bool)
    (files : List String)
    (hkeys : ((files.filter (fun f => matcher f)).map (offload_key ci)).Nodup) :
    OffloadIdempotent ci matcher copy1 files := by
  have hperf : (offload_pass ci matcher (fun _ => true) files []).2 =
      files.filter (fun f => matcher f) :=
    offload_pass_perf_eq ci matcher files [] hkeys (by intro f _ _ h; cases h)
  refine ⟨hperf, ?_, ?_, ?_, ?_, fun f => rfl⟩
  · intro f hf hmf
    rw [hperf]
    exact List.count_eq_one_of_mem (hkeys.of_map _)
      (List.mem_filter.mpr ⟨hf, by simp [hmf]⟩)
  · refine offload_pass_skip_all ci matcher _ files _ ?_
    intro f hf hmf
    exact (offload_pass_all_ok_copied ci matcher files [] _).mpr
      (Or.inr ⟨f, hf, hmf, rfl⟩)
  · intro f hf hmf hcf
    have hnot : offload_key ci f ∉ (offload_pass ci matcher copy1 files []).1 := by
      intro hin
      rcases offload_pass_copied_src ci matcher copy1 files [] _ hin with h | ⟨g, hg, hmg, hcg, hkg⟩
      · cases h
      · have hgf : g = f :=
          List.inj_on_of_nodup_map hkeys
            (List.mem_filter.mpr ⟨hg, by simp [hmg]⟩)
            (List.mem_filter.mpr ⟨hf, by simp [hmf]⟩) hkg
        rw [hgf] at hcg
        rw [hcg] at hcf
        cases hcf
    exact ⟨hnot, offload_pass_retry ci matcher f files _ hkeys hf hmf hnot⟩
  · intro f fs copied cok hk
    exact offload_pass_not_copied ci matcher cok f fs copied hk

/-- Witness for C8: directory `["a.png", "b.txt"]`, matcher accepting only
`a.png`, first copy attempt failing. -/
theorem offload_pass_idempotent_witness :
    ((((["a.png", "b.txt"].filter (fun f => f == "a.png")).map
        (offload_key false))).Nodup) ∧
      OffloadIdempotent false (fun f => f == "a.png") (fun _ => false)
        ["a.png", "b.txt"] :=
  ⟨by decide,
    offload_pass_idempotent false (fun f => f == "a.png") (fun _ => false)
      ["a.png", "b.txt"] (by decide)⟩

/-! ## External kill tool (`src/stmpo_stop.py`) -/

/-- ASCII subset of the Python regex class `\s` (sufficient for the persisted
pid files and logs, which this tool itself writes). -/
def is_py_space (c : Char) : Bool :=
  c = ' ' || c = '\t' || c = '\n' || c = '\r' || c = '\x0b' || c = '\x0c'

/-- Attempted match of `PID_RE = re.compile(r"pid\s*=\s*(\d+)", re.IGNORECASE)`
at the current position: `pid` (any case), optional spaces, `=`, optional
spaces, then a maximal non-empty digit run forming the captured group. -/
def try_pid_at (cs : List Char) : Option Nat :=
  match cs with
  | p :: i :: d :: rest =>
    if p.toLower = 'p' && i.toLower = 'i' && d.toLower = 'd' then
      match rest.dropWhile is_py_space with
      | '=' :: r2 =>
        let r3 := r2.dropWhile is_py_space
        let ds := r3.takeWhile Char.isDigit
        if ds.isEmpty then none else some (digits_to_nat ds)
      | _ => none
    else none
  | _ => none

/-- All pids captured by `PID_RE.finditer(txt)`.  Scanning position by
position is equivalent to the non-overlapping `finditer` here: a successful
match consumes `pid`, spaces, `=`, spaces and digits, and no later `pid`
prefix can start inside that span. -/
def pid_eq_matches : List Char → List Nat
  | [] => []
  | c :: rest =>
    match try_pid_at (c :: rest) with
    | some n => n :: pid_eq_matches rest
    | none => pid_eq_matches rest

/-- Consume a literal character sequence (case-sensitive), returning the rest. -/
def lit_pref : List Char → List Char → Option (List Char)
  | [], cs => some cs
  | _ :: _, [] => none
  | l :: ls, c :: cs => if c = l then lit_pref ls cs else none

/-- Attempted match of
`LAUNCHED_RE = re.compile(r"Launched child\[\d+\]\s+pid=(\d+)")` at the
current position. -/
def try_launched_at (cs : List Char) : Option Nat :=
  match lit_pref "Launched child[".toList cs with
  | none => none
  | some r1 =>
    let ds1 := r1.takeWhile Char.isDigit
    if ds1.isEmpty then none
    else
      match r1.drop ds1.length with
      | ']' :: r2 =>
        let sp := r2.takeWhile is_py_space
        if sp.isEmpty then none
        else
          match lit_pref "pid=".toList (r2.drop sp.length) with
          | none => none
          | some r3 =>
            let ds := r3.takeWhile Char.isDigit
            if ds.isEmpty then none else some (digits_to_nat ds)
      | _ => none

/-- All pids captured by `LAUNCHED_RE.finditer(txt)` (same non-overlap
argument as for `pid_eq_matches`). -/
def launched_matches : List Char → List Nat
  | [] => []
  | c :: rest =>
    match try_launched_at (c :: rest) with
    | some n => n :: launched_matches rest
    | none => launched_matches rest

/-- Python `str.strip()` on a character list (ASCII whitespace). -/
def strip_chars (cs : List Char) : List Char :=
  ((cs.dropWhile is_py_space).reverse.dropWhile is_py_space).reverse

/-- Newline splitting for `str.splitlines()` (the persisted files are
newline-separated; a stray `\r` is swallowed by the strip that follows). -/
def split_nl : List Char → List (List Char)
  | [] => [[]]
  | c :: rest =>
    if c = '\n' then [] :: split_nl rest
    else
      match split_nl rest with
      | [] => [[c]]
      | l :: ls => (c :: l) :: ls

/-- Standalone numeric lines of a file: `for line in txt.splitlines():
line = line.strip(); if line.isdigit(): ...`. -/
def digit_lines (txt : String) : List Nat :=
  (split_nl txt.toList).filterMap (fun l =>
    let t := strip_chars l
    if t.isEmpty then none
    else if t.all Char.isDigit then some (digits_to_nat t) else none)

/-- `_gather_pids_from_file` (stmpo_stop.py lines 31-53): `pid=` occurrences
plus standalone numeric lines, each admitted only when `pid > 1`.  The Python
function returns a set; order and duplicates are immaterial because the caller
sorts and deduplicates. -/
def gather_pids_from_file (txt : String) : List Nat :=
  ((pid_eq_matches txt.toList).filter (fun p => decide (1 < p))) ++
    ((digit_lines txt).filter (fun p => decide (1 < p)))

/-- `_gather_pids_from_log` (lines 56-76): `Launched child[i] pid=n` capture
plus all other `pid=` occurrences, each admitted only when `pid > 1`. -/
def gather_pids_from_log (txt : String) : List Nat :=
  ((launched_matches txt.toList).filter (fun p => decide (1 < p))) ++
    ((pid_eq_matches txt.toList).filter (fun p => decide (1 < p)))

/-- The runner pid as `main` parses it (lines 154-160 and 179-182): the file
must exist (`none` models absence) and its stripped text must be all digits. -/
def runner_pid_of (pid_file_txt : Option String) : Option Nat :=
  match pid_file_txt with
  | none => none
  | some txt =>
    let t := strip_chars txt.toList
    if t.isEmpty then none
    else if t.all Char.isDigit then some (digits_to_nat t) else none

/-- Contents of the three input files of the stop tool; `none` models an
absent file. -/
structure StopInputs where
  runner_txt : Option String
  child_txt : Option String
  log_txt : Option String

/-- Ascending insertion of a pid into a sorted list. -/
def insert_sorted (x : Nat) : List Nat → List Nat
  | [] => [x]
  | y :: ys => if x ≤ y then x :: y :: ys else y :: insert_sorted x ys

/-- `sorted(pids)` over the Python set: deduplicate, then sort ascending (the
sorted sequence is independent of the sorting algorithm; insertion sort is
used here). -/
def sorted_pid_set (l : List Nat) : List Nat :=
  (dedup_first l).foldr insert_sorted []

/-- The `pids` set built by `main` (lines 151-169): the raw runner pid (added
without a lower bound), the child-file pids and the log pids. -/
def gathered_pids (inp : StopInputs) : List Nat :=
  sorted_pid_set (
    (match runner_pid_of inp.runner_txt with
     | some r => [r]
     | none => []) ++
    (match inp.child_txt with
     | some txt => gather_pids_from_file txt
     | none => []) ++
    (match inp.log_txt with
     | some txt => gather_pids_from_log txt
     | none => []))

/-- `pids_list = [p for p in sorted(pids) if p > 1]` (line 173). -/
def pids_list (inp : StopInputs) : List Nat :=
  (gathered_pids inp).filter (fun p => decide (1 < p))

/-- The ordered sequence of `_kill_tree` invocations made by `main` (lines
184-190): every target except the runner, in list order, then the runner pid
when one was parsed. -/
def kill_sequence (inp : StopInputs) : List Nat :=
  (match runner_pid_of inp.runner_txt with
   | some r => (pids_list inp).filter (fun p => decide (p ≠ r))
   | none => pids_list inp) ++
  (match runner_pid_of inp.runner_txt with
   | some r => [r]
   | none => [])

/-- Root pids that `_kill_tree(pid)` actually signals: the guard
`if pid <= 1: return` (line 80) makes it a no-op for pid 0 and 1; otherwise
the termination protocol is applied to the process (and its tree) rooted at
`pid`. -/
def kill_tree_signal_targets (pid : Nat) : List Nat :=
  if pid ≤ 1 then [] else [pid]

/-- All input-derived pids the stop tool sends any signal to. -/
def signalled_pids (inp : StopInputs) : List Nat :=
  (kill_sequence inp).flatMap kill_tree_signal_targets

/-- `main` returns 0 unconditionally (line 199): every failure inside is
swallowed, so an invocation naming no live processes completes without
error. -/
def stop_main_rc (_inp : StopInputs) : Int := 0

/-- C9: whenever a runner pid was parsed, the kill sequence is some prefix not
containing the runner — and containing every non-runner target — followed by
the runner pid last, so the runner is only signalled after every non-runner
pid has been through the termination protocol; with all three input files
absent the target set is empty and the kill sequence empty; and the tool
always completes with exit code 0. -/
theorem stop_tool_kill_order :
    ∀ (inp : StopInputs),
      (∀ r : Nat, runner_pid_of inp.runner_txt = some r →
        ∃ pre : List Nat, kill_sequence inp = pre ++ [r] ∧
          (∀ q ∈ pre, q ≠ r) ∧
          (∀ q ∈ pids_list inp, q ≠ r → q ∈ pre)) ∧
      (inp.runner_txt = none → inp.child_txt = none → inp.log_txt = none →
        pids_list inp = [] ∧ kill_sequence inp = []) ∧
      stop_main_rc inp = 0 := by
  intro inp
  refine ⟨?_, ?_, rfl⟩
  · intro r hr
    refine ⟨(pids_list inp).filter (fun p => decide (p ≠ r)), ?_, ?_, ?_⟩
    · simp only [kill_sequence, hr]
    · intro q hq
      simpa using (List.mem_filter.mp hq).2
    · intro q hq hqr
      exact List.mem_filter.mpr ⟨hq, by simpa using hqr⟩
  · intro h1 h2 h3
    have hempty : gathered_pids inp = [] := by
      rw [gathered_pids, h1, h2, h3]
      rfl
    constructor
    · rw [pids_list, hempty]
      rfl
    · rw [kill_sequence, h1]
      simp only [runner_pid_of]
      rw [pids_list, hempty]
      rfl

/-- Witness for C9: runner pid file `123`, child pid file naming 200 and 201,
no log file. -/
theorem stop_tool_kill_order_witness :
    ∃ pre : List Nat,
      kill_sequence ⟨some "123", some "pid=200\n201\n", none⟩ = pre ++ [123] ∧
        (∀ q ∈ pre, q ≠ 123) ∧
        (∀ q ∈ pids_list ⟨some "123", some "pid=200\n201\n", none⟩,
          q ≠ 123 → q ∈ pre) :=
  (stop_tool_kill_order ⟨some "123", some "pid=200\n201\n", none⟩).1 123 (by decide)

/-- C10: the stop tool never sends a signal to a pid at most 1: the pids
gathered from the child-pid and log files are filtered to `pid > 1` at parse
time, the final target list is filtered to `pid > 1` again, and the kill
primitive returns immediately for `pid <= 1` — which also guards the one
unfiltered path, the raw runner pid. -/
theorem stop_tool_never_signals_low_pids :
    ∀ (inp : StopInputs),
      (∀ p ∈ signalled_pids inp, 1 < p) ∧
      (∀ txt : String, ∀ p ∈ gather_pids_from_file txt, 1 < p) ∧
      (∀ txt : String, ∀ p ∈ gather_pids_from_log txt, 1 < p) ∧
      (∀ p ∈ pids_list inp, 1 < p) ∧
      (∀ p : Nat, p ≤ 1 → kill_tree_signal_targets p = []) := by
  intro inp
  refine ⟨?_, ?_, ?_, ?_, ?_⟩
  · intro p hp
    obtain ⟨q, _, hpq⟩ := List.mem_flatMap.mp hp
    by_cases hq1 : q ≤ 1
    · rw [kill_tree_signal_targets, if_pos hq1] at hpq
      cases hpq
    · rw [kill_tree_signal_targets, if_neg hq1] at hpq
      rcases List.mem_singleton.mp hpq with rfl
      omega
  · intro txt p hp
    rcases List.mem_append.mp hp with h | h <;>
      simpa using (List.mem_filter.mp h).2
  · intro txt p hp
    rcases List.mem_append.mp hp with h | h <;>
      simpa using (List.mem_filter.mp h).2
  · intro p hp
    simpa using (List.mem_filter.mp hp).2
  · intro p hp
    rw [kill_tree_signal_targets, if_pos hp]

/-- Witness for C10: a corrupted runner pid file containing `1` together with a
child naming pid 200: pid 200 is a legitimate signal target, and the kill
primitive ignores pid 1 outright. -/
theorem stop_tool_never_signals_low_pids_witness :
    (1 : Nat) < 200 ∧ kill_tree_signal_targets 1 = [] :=
  ⟨(stop_tool_never_signals_low_pids ⟨some "1", some "pid=200", none⟩).1 200
      (by decide),
    (stop_tool_never_signals_low_pids ⟨some "1", some "pid=200", none⟩).2.2.2.2 1
      (by decide)⟩
